import Mathlib

/-!
Verification development for the fragment-detection core of HLA-Pipeline
(`src/hlapipeline/defrag/defrag.py`).

Retention times (Python floats) are modelled as rationals: the core only
compares absolute differences against a threshold, never accumulates
rounding. A Python `KeyError` raised by `convert_aa` on a symbol outside
the amino-acid alphabet is modelled as `Except.error ()`; dataframes are
modelled as lists of records in row order.
-/

namespace Defrag

abbrev RT := ℚ

/-- The amino-acid dictionary `aa_dict` of the source, mapping each of the 20
canonical letters to a dense index. -/
def aa_dict : List (Char × Fin 20) :=
  [('A', 0), ('C', 1), ('D', 2), ('E', 3), ('F', 4), ('G', 5),
   ('H', 6), ('I', 7), ('K', 8), ('L', 9), ('M', 10), ('N', 11),
   ('P', 12), ('Q', 13), ('R', 14), ('S', 15), ('T', 16), ('V', 17),
   ('W', 18), ('Y', 19)]

/-- `convert_aa`: dictionary lookup; `none` models the `KeyError` the source
raises on a symbol outside the alphabet. -/
def convert_aa (c : Char) : Option (Fin 20) :=
  aa_dict.lookup c

/-- One row of the peptide dataframe: the columns `HLAP_sequence`,
`HLAP_length`, `HLAP_RT` and `HLAP_fragment` used by the defrag core. -/
structure Record where
  seq : List Char
  length : ℕ
  rt : RT
  fragment : Bool
deriving DecidableEq

/-- A suffix-tree node: the source pairs a retention-time list with a list of
20 optional children indexed by amino-acid code (`([], [None] * 20)`); the
child array is modelled as a total map from `Fin 20`. -/
inductive STree where
  | mk : List RT → (Fin 20 → Option STree) → STree

def STree.rts : STree → List RT
  | .mk l _ => l

def STree.children : STree → Fin 20 → Option STree
  | .mk _ ch => ch

/-- The child array `[None] * 20`. -/
def emptyChildren : Fin 20 → Option STree := fun _ => none

/-- The empty root `([], [None] * 20)` built by `DefragSTree.__init__`. -/
def emptyTree : STree := STree.mk [] emptyChildren

/-- `DefragSTree.add`: walks the trie one character at a time, creating a
child on first visit and appending `rt` at every node whose depth (after the
increment) is at least `min_length`. Errors when `convert_aa` fails. -/
def addW (min_length : ℕ) (rt : RT) : List Char → ℕ → STree → Except Unit STree
  | [], _, level => .ok level
  | c :: item, depth, level =>
    match convert_aa c with
    | none => .error ()
    | some index =>
      match level.children index with
      | none => do
        let child ← addW min_length rt item (depth + 1)
          (STree.mk (if min_length ≤ depth + 1 then [rt] else []) emptyChildren)
        .ok (STree.mk level.rts (Function.update level.children index (some child)))
      | some sub => do
        let child ← addW min_length rt item (depth + 1)
          (if min_length ≤ depth + 1 then STree.mk (sub.rts ++ [rt]) sub.children else sub)
        .ok (STree.mk level.rts (Function.update level.children index (some child)))

/-- `DefragSTree.get`: walks the trie; `ok none` is the source's `None` (a
missing child), `ok (some rts)` the retention-time list at the final node,
and `error` the `KeyError` of `convert_aa`. -/
def getW : STree → List Char → Except Unit (Option (List RT))
  | level, [] => .ok (some level.rts)
  | level, c :: key =>
    match convert_aa c with
    | none => .error ()
    | some index =>
      match level.children index with
      | none => .ok none
      | some sub => getW sub key

/-- `DefragSTree.add_with_suffixes`: inserts `item[i:]` for
`i in range(len(item) - min_length + 1)`; in ℕ the count
`len + 1 - min_length` equals Python's `max(0, len - min_length + 1)`. -/
def addSuffixesW (min_length : ℕ) (item : List Char) (rt : RT) (t : STree) :
    Except Unit STree :=
  (List.range (item.length + 1 - min_length)).foldlM
    (fun level i => addW min_length rt (item.drop i) 0 level) t

/-- The row filter of `DefragSTree.add_above_length`:
`(HLAP_length > len) & (HLAP_length <= _curr_min_length)`. -/
def bandFilter (data : List Record) (curr_min len : ℕ) : List Record :=
  data.filter (fun r => decide (len < r.length) && decide (r.length ≤ curr_min))

/-- The `DefragSTree` object: the trie, the full dataframe it was built over,
the length bounds, and the mutable `_curr_min_length` / `_length` fields. -/
structure DefragSTree where
  tree : STree
  data : List Record
  min_length : ℕ
  max_length : ℕ
  _curr_min_length : ℕ
  _length : ℕ

/-- `DefragSTree.__init__`: empty root, `_curr_min_length = 1000` (the
source's magic sentinel), `_length = 0`. -/
def DefragSTree.init (items : List Record) (min_length max_length : ℕ) :
    DefragSTree :=
  { tree := emptyTree, data := items, min_length := min_length,
    max_length := max_length, _curr_min_length := 1000, _length := 0 }

/-- `DefragSTree.add_above_length`: admits every not-yet-admitted record in
the band `(len, _curr_min_length]`, adding each with all its suffixes; the
per-iteration `self._length += 1` totals `filtered.length`. -/
def DefragSTree.add_above_length (s : DefragSTree) (len : ℕ) :
    Except Unit DefragSTree := do
  let filtered := bandFilter s.data s._curr_min_length len
  let t ← filtered.foldlM (fun level r => addSuffixesW s.min_length r.seq r.rt level) s.tree
  .ok { s with tree := t, _length := s._length + filtered.length, _curr_min_length := len }

/-- The inner `_check` of `find_fragments`: a row is a fragment when its
lookup returns a list holding some `rt` with `abs(rt - row.HLAP_RT)` below
the threshold. -/
def _check (stree : DefragSTree) (rt_thresh : RT) (r : Record) :
    Except Unit Bool := do
  let seq_rts ← getW stree.tree r.seq
  match seq_rts with
  | some rts => .ok (rts.any (fun rt => decide (|rt - r.rt| < rt_thresh)))
  | none => .ok false

/-- The row update of `find_fragments`: rows with `HLAP_length == short_len`
get `HLAP_fragment |= _check(row)`, other rows are untouched. -/
def applyCheck (stree : DefragSTree) (short_len : ℕ) (rt_thresh : RT) :
    List Record → Except Unit (List Record)
  | [] => .ok []
  | r :: rs => do
    let rs' ← applyCheck stree short_len rt_thresh rs
    if r.length = short_len then
      let b ← _check stree rt_thresh r
      .ok ({ r with fragment := r.fragment || b } :: rs')
    else
      .ok (r :: rs')

/-- `find_fragments`: admits everything longer than `short_len`, then updates
the fragment flags of the rows of length `short_len`. -/
def find_fragments (d : List Record) (stree : DefragSTree) (short_len : ℕ)
    (rt_thresh : RT) : Except Unit (List Record × DefragSTree) := do
  let stree ← stree.add_above_length short_len
  let d ← applyCheck stree short_len rt_thresh d
  .ok (d, stree)

/-- Python's `range(max_len, min_len - 1, -1)`: `n` values counting down
from `hi`. -/
def descList (hi : ℕ) : ℕ → List ℕ
  | 0 => []
  | n + 1 => hi :: descList (hi - 1) n

/-- `defrag`: copies the dataframe, clears the fragment column, builds the
`DefragSTree` over the copy and sweeps `find_fragments` for lengths from
`max_len` down to `min_len`. In the source `stree.data` aliases the copy,
but admission reads only the sequence, length and RT columns, which the
sweep never changes, so a snapshot is observationally identical. -/
def defrag (d : List Record) (rt_thresh : RT) (max_len min_len : ℕ) :
    Except Unit (List Record) := do
  let d := d.map (fun r => { r with fragment := false })
  let stree := DefragSTree.init d min_len max_len
  let p ← (descList max_len (max_len + 1 - min_len)).foldlM
    (fun (p : List Record × DefragSTree) i => find_fragments p.1 p.2 i rt_thresh)
    (d, stree)
  .ok p.1

/-! ## Pure index-level mirror

The same algorithm over pre-encoded sequences. On alphabet-valid input the
`Except` layer above refines to these total functions (proved below); all
structural reasoning happens here. -/

/-- Encoding of a sequence; on valid sequences this is exactly the list of
`convert_aa` images. -/
def encodeD (s : List Char) : List (Fin 20) := s.filterMap convert_aa

/-- A sequence over the 20-letter alphabet (the data-model invariant of the
spec: `sequence` is a string over the amino-acid alphabet). -/
def ValidSeq (s : List Char) : Prop := ∀ c ∈ s, (convert_aa c).isSome

instance (s : List Char) : Decidable (ValidSeq s) := by
  unfold ValidSeq
  infer_instance

/-- Index-level `DefragSTree.add`. -/
def addIdx (min_length : ℕ) (rt : RT) : List (Fin 20) → ℕ → STree → STree
  | [], _, level => level
  | index :: item, depth, level =>
    match level.children index with
    | none =>
      STree.mk level.rts (Function.update level.children index
        (some (addIdx min_length rt item (depth + 1)
          (STree.mk (if min_length ≤ depth + 1 then [rt] else []) emptyChildren))))
    | some sub =>
      STree.mk level.rts (Function.update level.children index
        (some (addIdx min_length rt item (depth + 1)
          (if min_length ≤ depth + 1 then STree.mk (sub.rts ++ [rt]) sub.children else sub))))

/-- Index-level `DefragSTree.get`. -/
def getIdx : STree → List (Fin 20) → Option (List RT)
  | level, [] => some level.rts
  | level, index :: key =>
    match level.children index with
    | none => none
    | some sub => getIdx sub key

/-- Index-level `DefragSTree.add_with_suffixes`. -/
def addSuffixesIdx (min_length : ℕ) (es : List (Fin 20)) (rt : RT) (t : STree) :
    STree :=
  (List.range (es.length + 1 - min_length)).foldl
    (fun level i => addIdx min_length rt (es.drop i) 0 level) t

/-- Folding a whole band of records into the trie, as
`add_above_length` does. -/
def foldAS (min_length : ℕ) (rs : List Record) (t : STree) : STree :=
  rs.foldl (fun level r => addSuffixesIdx min_length (encodeD r.seq) r.rt level) t

/-- The mutable state of the index-level sweep: the trie and
`_curr_min_length`. -/
structure MState where
  tree : STree
  curr_min : ℕ

/-- Index-level `add_above_length`. -/
def admitIdx (min_length : ℕ) (d0 : List Record) (st : MState) (len : ℕ) :
    MState :=
  { tree := foldAS min_length (bandFilter d0 st.curr_min len) st.tree,
    curr_min := len }

/-- Index-level `_check`. -/
def checkIdx (t : STree) (rt_thresh : RT) (r : Record) : Bool :=
  match getIdx t (encodeD r.seq) with
  | some rts => rts.any (fun rt => decide (|rt - r.rt| < rt_thresh))
  | none => false

/-- Index-level `find_fragments` (one floor of the sweep). -/
def classifyStep (min_length : ℕ) (d0 : List Record) (rt_thresh : RT)
    (p : List Record × MState) (len : ℕ) : List Record × MState :=
  let st := admitIdx min_length d0 p.2 len
  (p.1.map (fun r =>
    if r.length = len then
      { r with fragment := r.fragment || checkIdx st.tree rt_thresh r }
    else r), st)

/-- Index-level `defrag`. -/
def defragIdx (d : List Record) (rt_thresh : RT) (max_len min_len : ℕ) :
    List Record :=
  let d0 := d.map (fun r => { r with fragment := false })
  ((descList max_len (max_len + 1 - min_len)).foldl
    (classifyStep min_len d0 rt_thresh) (d0, ⟨emptyTree, 1000⟩)).1

/-- The records admitted by a chain of `add_above_length` calls at the given
floors, starting from `_curr_min_length = c`, in admission order. -/
def admitList (d0 : List Record) : List ℕ → ℕ → List Record
  | [], _ => []
  | f :: fs, c => bandFilter d0 c f ++ admitList d0 fs f

/-- The flag the sweep assigns to a record, as a function of the record and
of the cleared dataset only: a record inside the classified length range gets
the `_check` verdict against the trie of everything admitted down to its own
length, and a record outside the range keeps `False`. -/
def sweepFlag (d0 : List Record) (rt_thresh : RT) (max_len min_len : ℕ)
    (r : Record) : Bool :=
  if r.length ≤ max_len ∧ max_len < r.length + (max_len + 1 - min_len) then
    checkIdx (foldAS min_len
      (admitList d0 (descList max_len (max_len + 1 - r.length)) 1000) emptyTree)
      rt_thresh { r with fragment := false }
  else false

/-! ### Concrete records used to witness the theorems -/

def wQ12 : Record := ⟨"AAAAGGAFPLLL".toList, 12, 10, false⟩

def wP9 : Record := ⟨"AAAAGGAFP".toList, 9, 51 / 5, false⟩

def wDisj6 : Record := ⟨"WWWWYY".toList, 6, 10, false⟩

def wQ23 : Record := ⟨"AAAAGGAFPLLLWWWWYYYYVVV".toList, 23, 10, false⟩

def wBig : Record := ⟨List.replicate 1001 'A', 1001, 10, false⟩

def wG6 : Record := ⟨"ACDEFG".toList, 6, 10, false⟩

def wB6 : Record := ⟨"ACDEFG".toList, 6, 21 / 2, false⟩

/-- A `DefragSTree` holding `"ACDEFG"` with retention time 10, used to witness
the tolerance-boundary theorem. -/
def dtw : DefragSTree :=
  ⟨addSuffixesIdx 6 (encodeD "ACDEFG".toList) 10 emptyTree, [], 6, 22, 1000, 0⟩

/-! ## The alphabet codec -/

/-- The 20 canonical amino-acid letters, the keys of `aa_dict`. -/
def aaLetters : List Char :=
  ['A', 'C', 'D', 'E', 'F', 'G', 'H', 'I', 'K', 'L',
   'M', 'N', 'P', 'Q', 'R', 'S', 'T', 'V', 'W', 'Y']

theorem lookup_mem_pairs {l : List (Char × Fin 20)} {c : Char} {v : Fin 20}
    (h : l.lookup c = some v) : (c, v) ∈ l := by
  induction l with
  | nil => simp [List.lookup] at h
  | cons p l ih =>
    rw [List.lookup] at h
    by_cases hc : c = p.1
    · subst hc
      simp at h
      cases p
      simp_all
    · have : (c == p.1) = false := by simp [hc]
      rw [this] at h
      exact List.mem_cons_of_mem _ (ih h)

theorem lookup_none_pairs {l : List (Char × Fin 20)} {c : Char}
    (h : ∀ p ∈ l, c ≠ p.1) : l.lookup c = none := by
  induction l with
  | nil => rfl
  | cons p l ih =>
    rw [List.lookup]
    have : (c == p.1) = false := by
      simp only [beq_eq_false_iff_ne, ne_eq]
      exact h p (List.mem_cons_self _ _)
    rw [this]
    exact ih fun q hq => h q (List.mem_cons_of_mem _ hq)

theorem convert_aa_mem {c : Char} {v : Fin 20} (h : convert_aa c = some v) :
    (c, v) ∈ aa_dict :=
  lookup_mem_pairs h

theorem convert_aa_letter {c : Char} {v : Fin 20} (h : convert_aa c = some v) :
    c ∈ aaLetters := by
  have hm := convert_aa_mem h
  have : ∀ p ∈ aa_dict, p.1 ∈ aaLetters := by decide
  exact this _ hm

theorem convert_aa_none {c : Char} (h : c ∉ aaLetters) : convert_aa c = none := by
  refine lookup_none_pairs fun p hp hc => h ?_
  subst hc
  have : ∀ p ∈ aa_dict, p.1 ∈ aaLetters := by decide
  exact this _ hp

theorem convert_aa_inj {c₁ c₂ : Char} {v : Fin 20}
    (h₁ : convert_aa c₁ = some v) (h₂ : convert_aa c₂ = some v) : c₁ = c₂ := by
  have m₁ := convert_aa_mem h₁
  have m₂ := convert_aa_mem h₂
  have key : ∀ p ∈ aa_dict, ∀ q ∈ aa_dict, p.2 = q.2 → p.1 = q.1 := by decide
  exact key _ m₁ _ m₂ rfl

/-! ## Encoding of valid sequences -/

theorem encodeD_cons {c : Char} {v : Fin 20} (h : convert_aa c = some v)
    (s : List Char) : encodeD (c :: s) = v :: encodeD s := by
  simp [encodeD, h]

theorem ValidSeq.cons_elim {c : Char} {s : List Char} (h : ValidSeq (c :: s)) :
    (∃ v, convert_aa c = some v) ∧ ValidSeq s := by
  refine ⟨?_, fun x hx => h x (List.mem_cons_of_mem _ hx)⟩
  have := h c (List.mem_cons_self _ _)
  exact Option.isSome_iff_exists.mp this

theorem ValidSeq.of_sublist {s t : List Char} (h : ValidSeq t) (hs : s ⊆ t) :
    ValidSeq s := fun c hc => h c (hs hc)

theorem ValidSeq.drop {s : List Char} (h : ValidSeq s) (i : ℕ) :
    ValidSeq (s.drop i) :=
  h.of_sublist (List.drop_subset i s)

theorem ValidSeq.take {s : List Char} (h : ValidSeq s) (i : ℕ) :
    ValidSeq (s.take i) :=
  h.of_sublist (List.take_subset i s)

theorem encodeD_length {s : List Char} (h : ValidSeq s) :
    (encodeD s).length = s.length := by
  induction s with
  | nil => rfl
  | cons c s ih =>
    obtain ⟨⟨v, hv⟩, hs⟩ := h.cons_elim
    rw [encodeD_cons hv]
    simp [ih hs]

theorem encodeD_append (a b : List Char) :
    encodeD (a ++ b) = encodeD a ++ encodeD b :=
  List.filterMap_append a b _

theorem encodeD_pfx {a b : List Char} (h : a <+: b) :
    encodeD a <+: encodeD b := by
  obtain ⟨t, rfl⟩ := h
  exact ⟨encodeD t, (encodeD_append a t).symm⟩

theorem encodeD_drop {s : List Char} (h : ValidSeq s) (i : ℕ) :
    encodeD (s.drop i) = (encodeD s).drop i := by
  induction s generalizing i with
  | nil => simp [encodeD]
  | cons c s ih =>
    obtain ⟨⟨v, hv⟩, hs⟩ := h.cons_elim
    cases i with
    | zero => simp
    | succ i =>
      rw [List.drop_succ_cons, ih hs i, encodeD_cons hv, List.drop_succ_cons]

theorem encodeD_take {s : List Char} (h : ValidSeq s) (i : ℕ) :
    encodeD (s.take i) = (encodeD s).take i := by
  induction s generalizing i with
  | nil => simp [encodeD]
  | cons c s ih =>
    obtain ⟨⟨v, hv⟩, hs⟩ := h.cons_elim
    cases i with
    | zero => simp [encodeD]
    | succ i =>
      rw [List.take_succ_cons, encodeD_cons hv, encodeD_cons hv,
        List.take_succ_cons, ih hs i]

theorem encodeD_inj {a b : List Char} (ha : ValidSeq a) (hb : ValidSeq b)
    (h : encodeD a = encodeD b) : a = b := by
  induction a generalizing b with
  | nil =>
    cases b with
    | nil => rfl
    | cons c bs =>
      obtain ⟨⟨v, hv⟩, _⟩ := hb.cons_elim
      rw [encodeD_cons hv] at h
      simp [encodeD] at h
  | cons c as ih =>
    obtain ⟨⟨v, hv⟩, ha'⟩ := ha.cons_elim
    cases b with
    | nil =>
      rw [encodeD_cons hv] at h
      simp [encodeD] at h
    | cons c' bs =>
      obtain ⟨⟨v', hv'⟩, hb'⟩ := hb.cons_elim
      rw [encodeD_cons hv, encodeD_cons hv'] at h
      obtain ⟨hvv, htl⟩ := List.cons_eq_cons.mp h
      subst hvv
      rw [convert_aa_inj hv hv', ih ha' hb' htl]

theorem encodeD_pfx_rev {a b : List Char} (ha : ValidSeq a) (hb : ValidSeq b)
    (h : encodeD a <+: encodeD b) : a <+: b := by
  have hlen : (encodeD a).length ≤ (encodeD b).length := h.length_le
  rw [encodeD_length ha, encodeD_length hb] at hlen
  have htake : encodeD a = (encodeD b).take (encodeD a).length :=
    List.prefix_iff_eq_take.mp h
  rw [encodeD_length ha, ← encodeD_take hb] at htake
  have : a = b.take a.length := encodeD_inj ha (hb.take _) htake
  refine ⟨b.drop a.length, ?_⟩
  nth_rewrite 1 [this]
  exact List.take_append_drop _ b

/-! ## Core lemmas on the index-level trie -/

@[simp] theorem rts_mk (l : List RT) (ch : Fin 20 → Option STree) :
    (STree.mk l ch).rts = l := rfl

@[simp] theorem children_mk (l : List RT) (ch : Fin 20 → Option STree) :
    (STree.mk l ch).children = ch := rfl

@[simp] theorem getIdx_nil (t : STree) : getIdx t [] = some t.rts := by
  cases t; rfl

theorem getIdx_cons (t : STree) (j : Fin 20) (ks : List (Fin 20)) :
    getIdx t (j :: ks) =
      match t.children j with
      | none => none
      | some sub => getIdx sub ks := by
  cases t; rfl

/-- Lookup along a nonempty key only inspects the child array. -/
theorem getIdx_congr_children {t t' : STree} (h : t.children = t'.children)
    {ks : List (Fin 20)} (hks : ks ≠ []) : getIdx t ks = getIdx t' ks := by
  cases ks with
  | nil => exact absurd rfl hks
  | cons k ks => rw [getIdx_cons, getIdx_cons, h]

/-- `add` never touches the retention times of the node it starts at. -/
theorem addIdx_rts (m : ℕ) (rt : RT) (item : List (Fin 20)) (d : ℕ) (t : STree) :
    (addIdx m rt item d t).rts = t.rts := by
  cases item with
  | nil => rfl
  | cons j js => cases hcj : t.children j <;> simp [addIdx, hcj]

/-- Keys that are not a prefix of the inserted string are unaffected by the
insertion. -/
theorem getIdx_addIdx_not_pfx (m : ℕ) (rt : RT) :
    ∀ (key item : List (Fin 20)) (d : ℕ) (t : STree),
      ¬ key <+: item → getIdx (addIdx m rt item d t) key = getIdx t key := by
  intro key
  induction key with
  | nil => intro item d t h; exact absurd (List.nil_prefix) h
  | cons k ks ih =>
    intro item d t h
    cases item with
    | nil => rfl
    | cons j js =>
      by_cases hkj : k = j
      · subst hkj
        have hks : ¬ ks <+: js := fun hp => h (List.cons_prefix_cons.mpr ⟨rfl, hp⟩)
        have hksne : ks ≠ [] := by
          rintro rfl
          exact hks (List.nil_prefix)
        cases hcj : t.children k with
        | none =>
          rw [getIdx_cons]
          simp only [addIdx, hcj, children_mk, Function.update_same]
          rw [ih _ _ _ hks]
          rw [getIdx_cons, hcj]
          cases ks with
          | nil => exact absurd rfl hksne
          | cons k' ks' => rw [getIdx_cons]; simp [emptyChildren]
        | some sub =>
          rw [getIdx_cons]
          simp only [addIdx, hcj, children_mk, Function.update_same]
          rw [ih _ _ _ hks]
          rw [getIdx_cons, hcj]
          refine getIdx_congr_children ?_ hksne
          by_cases hc : m ≤ d + 1 <;> simp [hc]
      · cases hcj : t.children j with
        | none =>
          rw [getIdx_cons]
          simp only [addIdx, hcj, children_mk]
          rw [Function.update_noteq hkj]
          rw [getIdx_cons]
        | some sub =>
          rw [getIdx_cons]
          simp only [addIdx, hcj, children_mk]
          rw [Function.update_noteq hkj]
          rw [getIdx_cons]

/-- The list returned after inserting `item` at a nonempty key that is a
prefix of `item`: the old list (empty when the path was absent), extended
with `rt` when the key's depth reaches `min_length`. -/
theorem getIdx_addIdx_pfx (m : ℕ) (rt : RT) :
    ∀ (key item : List (Fin 20)) (d : ℕ) (t : STree),
      key ≠ [] → key <+: item →
      getIdx (addIdx m rt item d t) key =
        some ((getIdx t key).getD [] ++
          if m ≤ d + key.length then [rt] else []) := by
  intro key
  induction key with
  | nil => intro item d t h; exact absurd rfl h
  | cons k ks ih =>
    intro item d t _ hpfx
    cases item with
    | nil => exact absurd hpfx (by simp)
    | cons j js =>
      obtain ⟨hkj, hks⟩ := List.cons_prefix_cons.mp hpfx
      subst hkj
      cases hcj : t.children k with
      | none =>
        rw [getIdx_cons]
        simp only [addIdx, hcj, children_mk, Function.update_same]
        rw [getIdx_cons, hcj]
        cases ks with
        | nil =>
          rw [getIdx_nil, addIdx_rts]
          simp
        | cons k' ks' =>
          rw [ih _ _ _ (by simp) hks]
          have hfresh : getIdx (STree.mk (if m ≤ d + 1 then [rt] else [])
              emptyChildren) (k' :: ks') = none := by
            rw [getIdx_cons]; simp [emptyChildren]
          rw [hfresh]
          simp only [Option.getD_none]
          have harith : (m ≤ d + 1 + (k' :: ks').length) ↔
              (m ≤ d + (k :: k' :: ks').length) := by simp; omega
          rw [if_congr harith rfl rfl]
      | some sub =>
        rw [getIdx_cons]
        simp only [addIdx, hcj, children_mk, Function.update_same]
        rw [getIdx_cons, hcj]
        cases ks with
        | nil =>
          rw [getIdx_nil, addIdx_rts]
          by_cases hc : m ≤ d + 1 <;> simp [hc]
        | cons k' ks' =>
          rw [ih _ _ _ (by simp) hks]
          have hsub : getIdx (if m ≤ d + 1 then STree.mk (sub.rts ++ [rt])
              sub.children else sub) (k' :: ks') = getIdx sub (k' :: ks') := by
            refine getIdx_congr_children ?_ (by simp)
            by_cases hc : m ≤ d + 1 <;> simp [hc]
          rw [hsub]
          have harith : (m ≤ d + 1 + (k' :: ks').length) ↔
              (m ≤ d + (k :: k' :: ks').length) := by simp; omega
          rw [if_congr harith rfl rfl]

end Defrag

namespace Defrag

/-! ## Derived per-insertion facts -/

theorem getIdx_empty {key : List (Fin 20)} (hne : key ≠ []) :
    getIdx emptyTree key = none := by
  cases key with
  | nil => exact absurd rfl hne
  | cons k ks => rw [getIdx_cons]; simp [emptyTree, emptyChildren]

theorem getIdx_addIdx_mono (m : ℕ) (rt : RT) (key item : List (Fin 20))
    (d : ℕ) (t : STree) {l : List RT} (h : getIdx t key = some l) :
    ∃ l', getIdx (addIdx m rt item d t) key = some (l ++ l') := by
  by_cases hp : key <+: item
  · cases hkey : key with
    | nil =>
      subst hkey
      rw [getIdx_nil] at h
      refine ⟨[], ?_⟩
      rw [getIdx_nil, addIdx_rts]
      simp [← Option.some_inj.mp h]
    | cons k ks =>
      subst hkey
      refine ⟨if m ≤ d + (k :: ks).length then [rt] else [], ?_⟩
      rw [getIdx_addIdx_pfx m rt (k :: ks) item d t (by simp) hp, h]
      rfl
  · exact ⟨[], by rw [getIdx_addIdx_not_pfx m rt key item d t hp, h, List.append_nil]⟩

theorem getIdx_addIdx_mem (m : ℕ) (rt : RT) (key item : List (Fin 20))
    (d : ℕ) (t : STree) {l : List RT} {x : RT} (h : getIdx t key = some l)
    (hx : x ∈ l) :
    ∃ l', getIdx (addIdx m rt item d t) key = some l' ∧ x ∈ l' := by
  obtain ⟨l', hl'⟩ := getIdx_addIdx_mono m rt key item d t h
  exact ⟨l ++ l', hl', List.mem_append_left _ hx⟩

theorem getIdx_addIdx_self_mem (m : ℕ) (rt : RT) (key item : List (Fin 20))
    (d : ℕ) (t : STree) (hne : key ≠ []) (hp : key <+: item)
    (hd : m ≤ d + key.length) :
    ∃ l, getIdx (addIdx m rt item d t) key = some l ∧ rt ∈ l := by
  rw [getIdx_addIdx_pfx m rt key item d t hne hp]
  refine ⟨_, rfl, ?_⟩
  rw [if_pos hd]
  exact List.mem_append_right _ (List.mem_singleton.mpr rfl)

theorem getIdx_addIdx_src (m : ℕ) (rt : RT) (key item : List (Fin 20))
    (d : ℕ) (t : STree) {l' : List RT} {x : RT}
    (h' : getIdx (addIdx m rt item d t) key = some l') (hx : x ∈ l') :
    (∃ l, getIdx t key = some l ∧ x ∈ l) ∨
      (x = rt ∧ key ≠ [] ∧ key <+: item ∧ m ≤ d + key.length) := by
  cases hkey : key with
  | nil =>
    subst hkey
    rw [getIdx_nil, addIdx_rts] at h'
    exact Or.inl ⟨t.rts, by rw [getIdx_nil], by rw [← Option.some_inj.mp h'] at hx; exact hx⟩
  | cons k ks =>
    subst hkey
    set key : List (Fin 20) := k :: ks with hkeydef
    have hne : key ≠ [] := by simp [hkeydef]
    by_cases hp : key <+: item
    · rw [getIdx_addIdx_pfx m rt key item d t hne hp] at h'
      rw [← Option.some_inj.mp h'] at hx
      rcases List.mem_append.mp hx with hold | hnew
      · cases hgo : getIdx t key with
        | none => rw [hgo] at hold; simp at hold
        | some l => rw [hgo] at hold; exact Or.inl ⟨l, rfl, by simpa using hold⟩
      · by_cases hd : m ≤ d + key.length
        · rw [if_pos hd] at hnew
          exact Or.inr ⟨List.mem_singleton.mp hnew, hne, hp, hd⟩
        · rw [if_neg hd] at hnew
          simp at hnew
    · rw [getIdx_addIdx_not_pfx m rt key item d t hp] at h'
      exact Or.inl ⟨l', h', hx⟩

theorem getIdx_addIdx_none (m : ℕ) (rt : RT) (key item : List (Fin 20))
    (d : ℕ) (t : STree) :
    getIdx (addIdx m rt item d t) key = none ↔
      (getIdx t key = none ∧ ¬ key <+: item) := by
  cases hkey : key with
  | nil => simp
  | cons k ks =>
    rw [← hkey]
    have hne : key ≠ [] := by simp [hkey]
    by_cases hp : key <+: item
    · rw [getIdx_addIdx_pfx m rt key item d t hne hp]
      simp [hp]
    · rw [getIdx_addIdx_not_pfx m rt key item d t hp]
      simp [hp]

/-! ## Facts about inserting a string with all its suffixes -/

theorem mem_range_iff_le (i n m : ℕ) : i ∈ List.range (n + 1 - m) ↔ i + m ≤ n := by
  rw [List.mem_range]
  omega

theorem addSuffixesIdx_eq_foldl (m : ℕ) (es : List (Fin 20)) (rt : RT) (t : STree) :
    addSuffixesIdx m es rt t = (List.range (es.length + 1 - m)).foldl
      (fun level i => addIdx m rt (es.drop i) 0 level) t := rfl

theorem foldl_addIdx_mem (m : ℕ) (rt : RT) (es : List (Fin 20)) :
    ∀ (is : List ℕ) (t : STree) (key : List (Fin 20)) (l : List RT) (x : RT),
      getIdx t key = some l → x ∈ l →
      ∃ l', getIdx (is.foldl (fun level i => addIdx m rt (es.drop i) 0 level) t)
        key = some l' ∧ x ∈ l' := by
  intro is
  induction is with
  | nil => intro t key l x h hx; exact ⟨l, h, hx⟩
  | cons i is ih =>
    intro t key l x h hx
    obtain ⟨l₁, hl₁, hxl₁⟩ := getIdx_addIdx_mem m rt key (es.drop i) 0 t h hx
    exact ih _ key l₁ x hl₁ hxl₁

theorem foldl_addIdx_new (m : ℕ) (rt : RT) (es : List (Fin 20)) :
    ∀ (is : List ℕ) (t : STree) (key : List (Fin 20)) (i : ℕ),
      i ∈ is → key ≠ [] → key <+: es.drop i → m ≤ key.length →
      ∃ l, getIdx (is.foldl (fun level i => addIdx m rt (es.drop i) 0 level) t)
        key = some l ∧ rt ∈ l := by
  intro is
  induction is with
  | nil => intro t key i hi; simp at hi
  | cons i₀ is ih =>
    intro t key i hi hne hp hd
    rcases List.mem_cons.mp hi with rfl | hi'
    · obtain ⟨l, hl, hrtl⟩ := getIdx_addIdx_self_mem m rt key (es.drop i) 0 t hne hp
        (by simpa using hd)
      exact foldl_addIdx_mem m rt es is _ key l rt hl hrtl
    · exact ih _ key i hi' hne hp hd

theorem foldl_addIdx_src (m : ℕ) (rt : RT) (es : List (Fin 20)) :
    ∀ (is : List ℕ) (t : STree) (key : List (Fin 20)) (l' : List RT) (x : RT),
      getIdx (is.foldl (fun level i => addIdx m rt (es.drop i) 0 level) t)
        key = some l' → x ∈ l' →
      (∃ l, getIdx t key = some l ∧ x ∈ l) ∨
        (x = rt ∧ key ≠ [] ∧ m ≤ key.length ∧ ∃ i ∈ is, key <+: es.drop i) := by
  intro is
  induction is with
  | nil => intro t key l' x h hx; exact Or.inl ⟨l', h, hx⟩
  | cons i₀ is ih =>
    intro t key l' x h hx
    rcases ih _ key l' x h hx with ⟨l₁, hl₁, hxl₁⟩ | ⟨hxr, hne, hd, i, hi, hp⟩
    · rcases getIdx_addIdx_src m rt key (es.drop i₀) 0 t hl₁ hxl₁ with hold | hnew
      · exact Or.inl hold
      · obtain ⟨hxr, hne, hp, hd⟩ := hnew
        exact Or.inr ⟨hxr, hne, by simpa using hd, i₀, List.mem_cons_self _ _, hp⟩
    · exact Or.inr ⟨hxr, hne, hd, i, List.mem_cons_of_mem _ hi, hp⟩

theorem foldl_addIdx_none (m : ℕ) (rt : RT) (es : List (Fin 20)) :
    ∀ (is : List ℕ) (t : STree) (key : List (Fin 20)),
      getIdx (is.foldl (fun level i => addIdx m rt (es.drop i) 0 level) t)
        key = none ↔
      (getIdx t key = none ∧ ∀ i ∈ is, ¬ key <+: es.drop i) := by
  intro is
  induction is with
  | nil => intro t key; simp
  | cons i₀ is ih =>
    intro t key
    rw [List.foldl_cons, ih]
    rw [getIdx_addIdx_none]
    constructor
    · rintro ⟨⟨h1, h2⟩, h3⟩
      refine ⟨h1, ?_⟩
      intro i hi
      rcases List.mem_cons.mp hi with rfl | hi'
      · exact h2
      · exact h3 i hi'
    · rintro ⟨h1, h2⟩
      exact ⟨⟨h1, h2 i₀ (List.mem_cons_self _ _)⟩, fun i hi => h2 i (List.mem_cons_of_mem _ hi)⟩

end Defrag

namespace Defrag

/-! ## Facts about folding whole bands of records into the trie -/

theorem foldAS_cons (m : ℕ) (r : Record) (rs : List Record) (t : STree) :
    foldAS m (r :: rs) t =
      foldAS m rs (addSuffixesIdx m (encodeD r.seq) r.rt t) := rfl

theorem foldAS_append (m : ℕ) (rs rs' : List Record) (t : STree) :
    foldAS m (rs ++ rs') t = foldAS m rs' (foldAS m rs t) :=
  List.foldl_append _ _ _ _

theorem foldAS_mem (m : ℕ) :
    ∀ (rs : List Record) (t : STree) (key : List (Fin 20)) (l : List RT) (x : RT),
      getIdx t key = some l → x ∈ l →
      ∃ l', getIdx (foldAS m rs t) key = some l' ∧ x ∈ l' := by
  intro rs
  induction rs with
  | nil => intro t key l x h hx; exact ⟨l, h, hx⟩
  | cons r rs ih =>
    intro t key l x h hx
    obtain ⟨l₁, hl₁, hxl₁⟩ := foldl_addIdx_mem m r.rt (encodeD r.seq) _ t key l x h hx
    exact ih _ key l₁ x hl₁ hxl₁

theorem foldAS_new (m : ℕ) :
    ∀ (rs : List Record) (t : STree) (key : List (Fin 20)) (q : Record),
      q ∈ rs → key ≠ [] → m ≤ key.length →
      (∃ i, i + m ≤ (encodeD q.seq).length ∧ key <+: (encodeD q.seq).drop i) →
      ∃ l, getIdx (foldAS m rs t) key = some l ∧ q.rt ∈ l := by
  intro rs
  induction rs with
  | nil => intro t key q hq; simp at hq
  | cons r rs ih =>
    intro t key q hq hne hm hocc
    rcases List.mem_cons.mp hq with rfl | hq'
    · obtain ⟨i, hi, hp⟩ := hocc
      have hi' : i ∈ List.range ((encodeD q.seq).length + 1 - m) :=
        (mem_range_iff_le i (encodeD q.seq).length m).mpr hi
      obtain ⟨l, hl, hrtl⟩ := foldl_addIdx_new m q.rt (encodeD q.seq) _ t key i hi' hne hp hm
      exact foldAS_mem m rs _ key l q.rt hl hrtl
    · exact ih _ key q hq' hne hm hocc

theorem foldAS_src (m : ℕ) :
    ∀ (rs : List Record) (t : STree) (key : List (Fin 20)) (l' : List RT) (x : RT),
      getIdx (foldAS m rs t) key = some l' → x ∈ l' →
      (∃ l, getIdx t key = some l ∧ x ∈ l) ∨
        (key ≠ [] ∧ m ≤ key.length ∧ ∃ q ∈ rs, (∃ i, i + m ≤ (encodeD q.seq).length ∧
          key <+: (encodeD q.seq).drop i) ∧ x = q.rt) := by
  intro rs
  induction rs with
  | nil => intro t key l' x h hx; exact Or.inl ⟨l', h, hx⟩
  | cons r rs ih =>
    intro t key l' x h hx
    rcases ih _ key l' x h hx with ⟨l₁, hl₁, hxl₁⟩ | ⟨hne, hm, q, hq, hocc, hxr⟩
    · rcases foldl_addIdx_src m r.rt (encodeD r.seq) _ t key l₁ x hl₁ hxl₁ with
        hold | ⟨hxr, hne, hm, i, hi, hp⟩
      · exact Or.inl hold
      · refine Or.inr ⟨hne, hm, r, List.mem_cons_self _ _, ⟨i, ?_, hp⟩, hxr⟩
        exact (mem_range_iff_le i (encodeD r.seq).length m).mp hi
    · exact Or.inr ⟨hne, hm, q, List.mem_cons_of_mem _ hq, hocc, hxr⟩

theorem foldAS_none (m : ℕ) :
    ∀ (rs : List Record) (t : STree) (key : List (Fin 20)),
      getIdx (foldAS m rs t) key = none ↔
      (getIdx t key = none ∧ ∀ q ∈ rs, ∀ i, i + m ≤ (encodeD q.seq).length →
        ¬ key <+: (encodeD q.seq).drop i) := by
  intro rs
  induction rs with
  | nil => intro t key; simp [foldAS]
  | cons r rs ih =>
    intro t key
    rw [foldAS_cons, ih, addSuffixesIdx_eq_foldl, foldl_addIdx_none]
    constructor
    · rintro ⟨⟨h1, h2⟩, h3⟩
      refine ⟨h1, ?_⟩
      intro q hq i hi
      rcases List.mem_cons.mp hq with rfl | hq'
      · exact h2 i ((mem_range_iff_le i (encodeD q.seq).length m).mpr hi)
      · exact h3 q hq' i hi
    · rintro ⟨h1, h2⟩
      refine ⟨⟨h1, ?_⟩, ?_⟩
      · intro i hi
        exact h2 r (List.mem_cons_self _ _) i ((mem_range_iff_le i _ m).mp hi)
      · intro q hq i hi
        exact h2 q (List.mem_cons_of_mem _ hq) i hi

/-! ## The characterization of trie contents after a fold from empty -/

theorem foldAS_char (m : ℕ) (rs : List Record) (key : List (Fin 20)) (x : RT)
    (hne : key ≠ []) :
    (∃ l, getIdx (foldAS m rs emptyTree) key = some l ∧ x ∈ l) ↔
      (m ≤ key.length ∧ ∃ q ∈ rs, (∃ i, i + m ≤ (encodeD q.seq).length ∧
        key <+: (encodeD q.seq).drop i) ∧ x = q.rt) := by
  constructor
  · rintro ⟨l, hl, hx⟩
    rcases foldAS_src m rs emptyTree key l x hl hx with ⟨l₀, hl₀, _⟩ | ⟨_, hm, q, hq, hocc, hxr⟩
    · rw [getIdx_empty hne] at hl₀; exact absurd hl₀ (by simp)
    · exact ⟨hm, q, hq, hocc, hxr⟩
  · rintro ⟨hm, q, hq, hocc, rfl⟩
    exact foldAS_new m rs emptyTree key q hq hne hm hocc

theorem foldAS_path (m : ℕ) (rs : List Record) (key : List (Fin 20))
    (hne : key ≠ []) :
    (getIdx (foldAS m rs emptyTree) key).isSome = true ↔
      ∃ q ∈ rs, ∃ i, i + m ≤ (encodeD q.seq).length ∧
        key <+: (encodeD q.seq).drop i := by
  rw [Option.isSome_iff_ne_none, ne_eq, foldAS_none]
  simp only [getIdx_empty hne, true_and]
  push_neg
  constructor
  · rintro ⟨q, hq, i, hi, hp⟩
    exact ⟨q, hq, i, hi, hp⟩
  · rintro ⟨q, hq, i, hi, hp⟩
    exact ⟨q, hq, i, hi, hp⟩

end Defrag

namespace Defrag

theorem checkIdx_eq_true_iff (t : STree) (θ : RT) (r : Record) :
    checkIdx t θ r = true ↔
      ∃ l, getIdx t (encodeD r.seq) = some l ∧ ∃ x ∈ l, |x - r.rt| < θ := by
  unfold checkIdx
  cases h : getIdx t (encodeD r.seq) with
  | none => simp
  | some l => simp [List.any_eq_true]

theorem checkIdx_foldAS_iff (m : ℕ) (rs : List Record) (θ : RT) (r : Record)
    (hne : encodeD r.seq ≠ []) :
    checkIdx (foldAS m rs emptyTree) θ r = true ↔
      (m ≤ (encodeD r.seq).length ∧ ∃ q ∈ rs,
        (∃ i, i + m ≤ (encodeD q.seq).length ∧
          encodeD r.seq <+: (encodeD q.seq).drop i) ∧ |q.rt - r.rt| < θ) := by
  rw [checkIdx_eq_true_iff]
  constructor
  · rintro ⟨l, hl, x, hx, hclose⟩
    obtain ⟨hm, q, hq, hocc, rfl⟩ := (foldAS_char m rs _ x hne).mp ⟨l, hl, hx⟩
    exact ⟨hm, q, hq, hocc, hclose⟩
  · rintro ⟨hm, q, hq, hocc, hclose⟩
    obtain ⟨l, hl, hx⟩ := (foldAS_char m rs _ q.rt hne).mpr ⟨hm, q, hq, hocc, rfl⟩
    exact ⟨l, hl, q.rt, hx, hclose⟩

/-! ## Refinement: on alphabet-valid data the source functions are total and
agree with the index-level mirror -/

theorem addW_ok {s : List Char} (m : ℕ) (rt : RT) (hs : ValidSeq s) :
    ∀ (d : ℕ) (t : STree),
      addW m rt s d t = Except.ok (addIdx m rt (encodeD s) d t) := by
  induction s with
  | nil => intro d t; rfl
  | cons c s ih =>
    intro d t
    obtain ⟨⟨v, hv⟩, hs'⟩ := hs.cons_elim
    rw [encodeD_cons hv]
    cases hcv : t.children v with
    | none =>
      show addW m rt (c :: s) d t = _
      rw [addW, hv]
      simp only [hcv, addIdx]
      rw [ih hs']
      rfl
    | some sub =>
      show addW m rt (c :: s) d t = _
      rw [addW, hv]
      simp only [hcv, addIdx]
      rw [ih hs']
      rfl

theorem getW_ok {s : List Char} (hs : ValidSeq s) :
    ∀ t : STree, getW t s = Except.ok (getIdx t (encodeD s)) := by
  induction s with
  | nil => intro t; rfl
  | cons c s ih =>
    intro t
    obtain ⟨⟨v, hv⟩, hs'⟩ := hs.cons_elim
    rw [encodeD_cons hv]
    cases hcv : t.children v with
    | none => simp only [getW, hv, hcv, getIdx_cons]
    | some sub =>
      simp only [getW, hv, hcv, getIdx_cons]
      exact ih hs' sub

theorem foldlM_ok {α β : Type} (f : β → α → Except Unit β) (g : β → α → β) :
    ∀ (l : List α), (∀ b, ∀ a ∈ l, f b a = .ok (g b a)) →
      ∀ b, l.foldlM f b = Except.ok (l.foldl g b) := by
  intro l
  induction l with
  | nil => intro _ b; rfl
  | cons a l ih =>
    intro hfg b
    rw [List.foldlM_cons, hfg b a (List.mem_cons_self _ _)]
    show l.foldlM f (g b a) = _
    exact ih (fun b a ha => hfg b a (List.mem_cons_of_mem _ ha)) _

theorem addSuffixesW_ok {s : List Char} (m : ℕ) (rt : RT) (hs : ValidSeq s)
    (t : STree) :
    addSuffixesW m s rt t = Except.ok (addSuffixesIdx m (encodeD s) rt t) := by
  unfold addSuffixesW addSuffixesIdx
  rw [encodeD_length hs]
  refine foldlM_ok _ _ _ ?_ t
  intro b i _
  rw [addW_ok m rt (hs.drop i), encodeD_drop hs i]

theorem add_above_length_ok (dt : DefragSTree) (len : ℕ)
    (hv : ∀ r ∈ dt.data, ValidSeq r.seq) :
    dt.add_above_length len = Except.ok
      { dt with
        tree := foldAS dt.min_length (bandFilter dt.data dt._curr_min_length len) dt.tree,
        _length := dt._length + (bandFilter dt.data dt._curr_min_length len).length,
        _curr_min_length := len } := by
  simp only [DefragSTree.add_above_length]
  rw [foldlM_ok _ (fun level r => addSuffixesIdx dt.min_length (encodeD r.seq) r.rt level)
    _ ?_ dt.tree]
  · rfl
  · intro b r hr
    exact addSuffixesW_ok dt.min_length r.rt (hv r (List.mem_of_mem_filter hr)) b

theorem check_ok (dt : DefragSTree) (θ : RT) (r : Record) (hr : ValidSeq r.seq) :
    _check dt θ r = Except.ok (checkIdx dt.tree θ r) := by
  unfold _check checkIdx
  rw [getW_ok hr]
  cases h : getIdx dt.tree (encodeD r.seq) with
  | none => rfl
  | some l => rfl

theorem applyCheck_ok (dt : DefragSTree) (sl : ℕ) (θ : RT) :
    ∀ (d : List Record), (∀ r ∈ d, ValidSeq r.seq) →
      applyCheck dt sl θ d = Except.ok (d.map (fun r =>
        if r.length = sl then
          { r with fragment := r.fragment || checkIdx dt.tree θ r }
        else r)) := by
  intro d
  induction d with
  | nil => intro _; rfl
  | cons r rs ih =>
    intro hv
    rw [applyCheck, ih (fun x hx => hv x (List.mem_cons_of_mem _ hx))]
    by_cases hlen : r.length = sl
    · show (if r.length = sl then _ else _ : Except Unit (List Record)) = _
      rw [if_pos hlen, check_ok dt θ r (hv r (List.mem_cons_self _ _))]
      simp [hlen]
      rfl
    · show (if r.length = sl then _ else _ : Except Unit (List Record)) = _
      rw [if_neg hlen]
      simp [hlen]

end Defrag

namespace Defrag

theorem except_bind_ok {α β : Type} (a : α) (f : α → Except Unit β) :
    (Except.ok a >>= f) = f a := rfl

theorem classifyStep_fst (m : ℕ) (d0 : List Record) (θ : RT)
    (d : List Record) (st : MState) (f : ℕ) :
    (classifyStep m d0 θ (d, st) f).1 = d.map (fun r =>
      if r.length = f then
        { r with fragment := r.fragment || checkIdx (admitIdx m d0 st f).tree θ r }
      else r) := rfl

theorem valid_map_clear {ds : List Record} (hv : ∀ r ∈ ds, ValidSeq r.seq) :
    ∀ r ∈ ds.map (fun r => { r with fragment := false }), ValidSeq r.seq := by
  intro r hr
  obtain ⟨r₀, hr₀, rfl⟩ := List.mem_map.mp hr
  exact hv r₀ hr₀

theorem valid_classifyStep {d : List Record} (hd : ∀ r ∈ d, ValidSeq r.seq)
    (m : ℕ) (d0 : List Record) (θ : RT) (st : MState) (f : ℕ) :
    ∀ r ∈ (classifyStep m d0 θ (d, st) f).1, ValidSeq r.seq := by
  intro r' hr'
  rw [classifyStep_fst] at hr'
  obtain ⟨r, hr, rfl⟩ := List.mem_map.mp hr'
  by_cases hlen : r.length = f
  · simp only [if_pos hlen]
    exact hd r hr
  · simp only [if_neg hlen]
    exact hd r hr

theorem find_fragments_ok (d : List Record) (θ : RT) (sl : ℕ)
    (d0 : List Record) (m M c cnt : ℕ) (t : STree)
    (hd : ∀ r ∈ d, ValidSeq r.seq) (h0 : ∀ r ∈ d0, ValidSeq r.seq) :
    find_fragments d ⟨t, d0, m, M, c, cnt⟩ sl θ = Except.ok
      ((classifyStep m d0 θ (d, ⟨t, c⟩) sl).1,
       ⟨(classifyStep m d0 θ (d, ⟨t, c⟩) sl).2.tree, d0, m, M, sl,
        cnt + (bandFilter d0 c sl).length⟩) := by
  unfold find_fragments
  rw [add_above_length_ok ⟨t, d0, m, M, c, cnt⟩ sl h0]
  simp only [except_bind_ok]
  rw [applyCheck_ok _ sl θ d hd]
  simp only [except_bind_ok]
  rfl

theorem sweep_ok (θ : RT) (m M : ℕ) (d0 : List Record)
    (h0 : ∀ r ∈ d0, ValidSeq r.seq) :
    ∀ (fs : List ℕ) (d : List Record) (st : MState) (cnt : ℕ),
      (∀ r ∈ d, ValidSeq r.seq) →
      ∃ cnt', fs.foldlM (fun (p : List Record × DefragSTree) i =>
          find_fragments p.1 p.2 i θ) (d, ⟨st.tree, d0, m, M, st.curr_min, cnt⟩) =
        Except.ok ((fs.foldl (classifyStep m d0 θ) (d, st)).1,
          ⟨(fs.foldl (classifyStep m d0 θ) (d, st)).2.tree, d0, m, M,
           (fs.foldl (classifyStep m d0 θ) (d, st)).2.curr_min, cnt'⟩) := by
  intro fs
  induction fs with
  | nil => intro d st cnt hd; exact ⟨cnt, rfl⟩
  | cons f fs ih =>
    intro d st cnt hd
    obtain ⟨t, c⟩ := st
    rw [List.foldlM_cons, find_fragments_ok d θ f d0 m M c cnt t hd h0]
    simp only [except_bind_ok]
    obtain ⟨cnt', h⟩ := ih (classifyStep m d0 θ (d, ⟨t, c⟩) f).1
      (classifyStep m d0 θ (d, ⟨t, c⟩) f).2 (cnt + (bandFilter d0 c f).length)
      (valid_classifyStep hd m d0 θ ⟨t, c⟩ f)
    exact ⟨cnt', h⟩

/-- On alphabet-valid data `defrag` returns exactly the index-level sweep. -/
theorem defrag_ok (ds : List Record) (θ : RT) (M m : ℕ)
    (hv : ∀ r ∈ ds, ValidSeq r.seq) :
    defrag ds θ M m = Except.ok (defragIdx ds θ M m) := by
  unfold defrag defragIdx
  obtain ⟨cnt', h⟩ := sweep_ok θ m M (ds.map (fun r => { r with fragment := false }))
    (valid_map_clear hv) (descList M (M + 1 - m))
    (ds.map (fun r => { r with fragment := false })) ⟨emptyTree, 1000⟩ 0
    (valid_map_clear hv)
  dsimp only at h
  dsimp only [DefragSTree.init]
  rw [h]
  rfl

end Defrag

namespace Defrag

theorem classifyStep_snd (m : ℕ) (d0 : List Record) (θ : RT)
    (d : List Record) (st : MState) (f : ℕ) :
    (classifyStep m d0 θ (d, st) f).2 = admitIdx m d0 st f := rfl

theorem mem_descList : ∀ (n hi f : ℕ), f ∈ descList hi n ↔ (f ≤ hi ∧ hi < f + n) := by
  intro n
  induction n with
  | zero => intro hi f; simp [descList]
  | succ n ih =>
    intro hi f
    rw [descList, List.mem_cons, ih]
    omega

theorem mem_bandFilter {d0 : List Record} {c f : ℕ} {q : Record} :
    q ∈ bandFilter d0 c f ↔ (q ∈ d0 ∧ f < q.length ∧ q.length ≤ c) := by
  unfold bandFilter
  rw [List.mem_filter]
  simp

/-- Everything admitted along a descending chain of floors ending at floor
`hi + 1 - n` is a dataset record strictly longer than that final floor. -/
theorem admitList_sub (d0 : List Record) :
    ∀ (n hi c : ℕ) (q : Record), 1 ≤ n →
      q ∈ admitList d0 (descList hi n) c →
      q ∈ d0 ∧ hi + 1 - n < q.length := by
  intro n
  induction n with
  | zero => intro hi c q h; omega
  | succ n ih =>
    intro hi c q _ hq
    rw [descList, admitList, List.mem_append] at hq
    rcases hq with hband | hrest
    · obtain ⟨hd0, hlen, _⟩ := mem_bandFilter.mp hband
      exact ⟨hd0, by omega⟩
    · have hn : 1 ≤ n := by
        by_contra hn0
        have : n = 0 := by omega
        subst this
        simp [descList, admitList] at hrest
      obtain ⟨hd0, hlen⟩ := ih (hi - 1) hi q hn hrest
      exact ⟨hd0, by omega⟩

/-- Every dataset record longer than the final floor and not longer than the
starting `_curr_min_length` is admitted along the chain. -/
theorem admitList_cover (d0 : List Record) :
    ∀ (n hi c : ℕ) (q : Record), 1 ≤ n → q ∈ d0 →
      hi + 1 - n < q.length → q.length ≤ c →
      q ∈ admitList d0 (descList hi n) c := by
  intro n
  induction n with
  | zero => intro hi c q h; omega
  | succ n ih =>
    intro hi c q _ hd0 hlo hhicap
    rw [descList, admitList, List.mem_append]
    by_cases hcase : hi < q.length
    · exact Or.inl (mem_bandFilter.mpr ⟨hd0, hcase, hhicap⟩)
    · have hn : 1 ≤ n := by omega
      refine Or.inr (ih (hi - 1) hi q hn hd0 (by omega) (by omega))

/-- Master description of the classification sweep: a record whose length
is outside the processed floors is untouched; a record classified at its own
length gets exactly the `_check` verdict against the trie holding the bands
admitted down to that length. -/
theorem sweep_master (m : ℕ) (d0 : List Record) (θ : RT) :
    ∀ (n hi : ℕ) (d : List Record) (st : MState) (as : List Record),
      n ≤ hi + 1 →
      st.tree = foldAS m as emptyTree →
      ∀ (k : ℕ) (r : Record), d.get? k = some r →
        (¬ (r.length ≤ hi ∧ hi < r.length + n) →
          ((descList hi n).foldl (classifyStep m d0 θ) (d, st)).1.get? k = some r) ∧
        ((r.length ≤ hi ∧ hi < r.length + n) →
          ((descList hi n).foldl (classifyStep m d0 θ) (d, st)).1.get? k =
            some { r with fragment := r.fragment || checkIdx (foldAS m (as ++ admitList d0 (descList hi (hi + 1 - r.length)) st.curr_min) emptyTree) θ r }) := by
  intro n
  induction n with
  | zero =>
    intro hi d st as _ _ k r hk
    refine ⟨fun _ => ?_, fun hcond => ?_⟩
    · simpa [descList] using hk
    · omega
  | succ n ih =>
    intro hi d st as hn htree k r hk
    rw [descList, List.foldl_cons]
    have hd1 : (classifyStep m d0 θ (d, st) hi).1.get? k = some
        (if r.length = hi then { r with fragment := r.fragment || checkIdx (admitIdx m d0 st hi).tree θ r } else r) := by
      rw [classifyStep_fst, List.get?_map, hk, Option.map_some']
    have htree1 : (classifyStep m d0 θ (d, st) hi).2.tree =
        foldAS m (as ++ bandFilter d0 st.curr_min hi) emptyTree := by
      rw [classifyStep_snd]
      show foldAS m (bandFilter d0 st.curr_min hi) st.tree = _
      rw [htree, ← foldAS_append]
    by_cases hlen : r.length = hi
    · subst hlen
      rw [if_pos rfl] at hd1
      have := ih (r.length - 1) (classifyStep m d0 θ (d, st) r.length).1
        (classifyStep m d0 θ (d, st) r.length).2 (as ++ bandFilter d0 st.curr_min r.length)
        (by omega) (by rw [htree1]) k _ hd1
      refine ⟨fun hcond => absurd ⟨le_refl _, by omega⟩ hcond, fun _ => ?_⟩
      have hfinal := (this.1) (by dsimp only; omega)
      rw [hfinal]
      have hds : descList r.length (r.length + 1 - r.length) = [r.length] := by
        have h1 : r.length + 1 - r.length = 1 := by omega
        rw [h1, descList, descList]
      rw [hds]
      have hasl : admitList d0 [r.length] st.curr_min =
          bandFilter d0 st.curr_min r.length ++ [] := rfl
      rw [hasl, List.append_nil]
      have hadm : (admitIdx m d0 st r.length).tree =
          foldAS m (as ++ bandFilter d0 st.curr_min r.length) emptyTree := by
        show foldAS m (bandFilter d0 st.curr_min r.length) st.tree = _
        rw [htree, ← foldAS_append]
      rw [hadm]
    · rw [if_neg hlen] at hd1
      have := ih (hi - 1) (classifyStep m d0 θ (d, st) hi).1
        (classifyStep m d0 θ (d, st) hi).2 (as ++ bandFilter d0 st.curr_min hi)
        (by omega) (by rw [htree1]) k r hd1
      constructor
      · intro hcond
        exact (this.1) (by omega)
      · intro hcond
        have hf : r.length ≤ hi - 1 ∧ hi - 1 < r.length + n := by omega
        have hfinal := (this.2) hf
        rw [hfinal]
        have hcm : (classifyStep m d0 θ (d, st) hi).2.curr_min = hi := rfl
        rw [hcm]
        have harr : hi + 1 - r.length = (hi - r.length) + 1 := by omega
        rw [harr, descList]
        have hsub : hi - 1 + 1 - r.length = hi - r.length := by omega
        rw [hsub]
        rw [show admitList d0 (hi :: descList (hi - 1) (hi - r.length)) st.curr_min =
          bandFilter d0 st.curr_min hi ++
            admitList d0 (descList (hi - 1) (hi - r.length)) hi from rfl]
        rw [List.append_assoc]

end Defrag

namespace Defrag

/-! ## Root retention times are never touched -/

theorem foldl_addIdx_rts (m : ℕ) (rt : RT) (es : List (Fin 20)) :
    ∀ (is : List ℕ) (t : STree),
      ((is.foldl (fun level i => addIdx m rt (es.drop i) 0 level) t)).rts = t.rts := by
  intro is
  induction is with
  | nil => intro t; rfl
  | cons i is ih =>
    intro t
    rw [List.foldl_cons, ih, addIdx_rts]

theorem addSuffixesIdx_rts (m : ℕ) (es : List (Fin 20)) (rt : RT) (t : STree) :
    (addSuffixesIdx m es rt t).rts = t.rts :=
  foldl_addIdx_rts m rt es _ t

theorem foldAS_rts (m : ℕ) :
    ∀ (rs : List Record) (t : STree), (foldAS m rs t).rts = t.rts := by
  intro rs
  induction rs with
  | nil => intro t; rfl
  | cons r rs ih =>
    intro t
    rw [foldAS_cons, ih, addSuffixesIdx_rts]

theorem checkIdx_nil_key (m : ℕ) (rs : List Record) (θ : RT) (r : Record)
    (h : encodeD r.seq = []) : checkIdx (foldAS m rs emptyTree) θ r = false := by
  unfold checkIdx
  rw [h, getIdx_nil, foldAS_rts]
  rfl

/-- The `_check` verdict against a trie built from a band depends only on
which records are in the band. -/
theorem checkIdx_ext (m : ℕ) (as as' : List Record) (θ : RT) (r : Record)
    (h : ∀ q, q ∈ as ↔ q ∈ as') :
    checkIdx (foldAS m as emptyTree) θ r = checkIdx (foldAS m as' emptyTree) θ r := by
  by_cases hne : encodeD r.seq = []
  · rw [checkIdx_nil_key m as θ r hne, checkIdx_nil_key m as' θ r hne]
  · have h1 := checkIdx_foldAS_iff m as θ r hne
    have h2 := checkIdx_foldAS_iff m as' θ r hne
    cases hb : checkIdx (foldAS m as emptyTree) θ r with
    | true =>
      obtain ⟨hm, q, hq, hocc, hclose⟩ := h1.mp hb
      exact (h2.mpr ⟨hm, q, (h q).mp hq, hocc, hclose⟩).symm
    | false =>
      cases hb' : checkIdx (foldAS m as' emptyTree) θ r with
      | false => rfl
      | true =>
        obtain ⟨hm, q, hq, hocc, hclose⟩ := h2.mp hb'
        rw [h1.mpr ⟨hm, q, (h q).mpr hq, hocc, hclose⟩] at hb
        exact hb.symm

/-! ## The admitted chain depends only on dataset membership -/

theorem bandFilter_mem_iff {d0 d0' : List Record}
    (h : ∀ q, q ∈ d0 ↔ q ∈ d0') (c f : ℕ) (q : Record) :
    q ∈ bandFilter d0 c f ↔ q ∈ bandFilter d0' c f := by
  rw [mem_bandFilter, mem_bandFilter, h q]

theorem admitList_mem_iff {d0 d0' : List Record}
    (h : ∀ q, q ∈ d0 ↔ q ∈ d0') :
    ∀ (fs : List ℕ) (c : ℕ) (q : Record),
      q ∈ admitList d0 fs c ↔ q ∈ admitList d0' fs c := by
  intro fs
  induction fs with
  | nil => intro c q; rfl
  | cons f fs ih =>
    intro c q
    rw [admitList, admitList, List.mem_append, List.mem_append,
      bandFilter_mem_iff h c f q, ih f q]

theorem sweepFlag_ext {d0 d0' : List Record} (h : ∀ q, q ∈ d0 ↔ q ∈ d0')
    (θ : RT) (M m : ℕ) (r : Record) :
    sweepFlag d0 θ M m r = sweepFlag d0' θ M m r := by
  unfold sweepFlag
  by_cases hc : r.length ≤ M ∧ M < r.length + (M + 1 - m)
  · rw [if_pos hc, if_pos hc]
    exact checkIdx_ext m _ _ θ _ (fun q => admitList_mem_iff h _ 1000 q)
  · rw [if_neg hc, if_neg hc]

/-! ## The sweep output, record by record -/

theorem sweep_len (m : ℕ) (d0 : List Record) (θ : RT) :
    ∀ (fs : List ℕ) (d : List Record) (st : MState),
      (fs.foldl (classifyStep m d0 θ) (d, st)).1.length = d.length := by
  intro fs
  induction fs with
  | nil => intro d st; rfl
  | cons f fs ih =>
    intro d st
    rw [List.foldl_cons]
    have h := ih (classifyStep m d0 θ (d, st) f).1 (classifyStep m d0 θ (d, st) f).2
    rw [show ((classifyStep m d0 θ (d, st) f).1, (classifyStep m d0 θ (d, st) f).2) =
      classifyStep m d0 θ (d, st) f from rfl] at h
    rw [h, classifyStep_fst, List.length_map]

/-- Every record of the dataset comes out of `defragIdx` unchanged except for
the fragment flag, which is exactly `sweepFlag` of the cleared dataset. -/
theorem defragIdx_get (ds : List Record) (θ : RT) (M m k : ℕ) (r : Record)
    (hr : ds.get? k = some r) :
    (defragIdx ds θ M m).get? k =
      some { r with fragment := sweepFlag (ds.map (fun x => { x with fragment := false })) θ M m r } := by
  unfold defragIdx
  have h0 : (ds.map (fun x => { x with fragment := false })).get? k =
      some { r with fragment := false } := by
    rw [List.get?_map, hr, Option.map_some']
  have hmaster := sweep_master m (ds.map (fun x => { x with fragment := false })) θ
    (M + 1 - m) M (ds.map (fun x => { x with fragment := false }))
    ⟨emptyTree, 1000⟩ [] (by omega) rfl k _ h0
  by_cases hc : r.length ≤ M ∧ M < r.length + (M + 1 - m)
  · have hfinal := hmaster.2 (by dsimp only; exact hc)
    rw [hfinal]
    unfold sweepFlag
    rw [if_pos hc]
    dsimp only
    rw [List.nil_append, Bool.false_or]
  · have hfinal := hmaster.1 (by dsimp only; exact hc)
    rw [hfinal]
    unfold sweepFlag
    rw [if_neg hc]

end Defrag

namespace Defrag

/-! ## Flag valuation helpers shared by the claim theorems -/

theorem encodeD_ne_nil {P : Record} (hPv : ValidSeq P.seq)
    (hPl : P.length = P.seq.length) (hpos : 0 < P.length) :
    encodeD P.seq ≠ [] := by
  have : (encodeD P.seq).length = P.seq.length := encodeD_length hPv
  intro hnil
  rw [hnil] at this
  simp at this
  omega

theorem sweepFlag_true_of_containment (ds : List Record) (θ : RT) (M m : ℕ)
    (P Q : Record)
    (hv : ∀ r ∈ ds, ValidSeq r.seq ∧ r.length = r.seq.length)
    (hm0 : 0 < m) (hQ : Q ∈ ds)
    (hmP : m ≤ P.length) (hPM : P.length ≤ M)
    (hPQ : P.length < Q.length) (hQcap : Q.length ≤ 1000)
    (hsub : ∃ i, P.seq <+: Q.seq.drop i)
    (hrt : |P.rt - Q.rt| < θ)
    (hPv : ValidSeq P.seq) (hPl : P.length = P.seq.length) :
    sweepFlag (ds.map (fun x => { x with fragment := false })) θ M m P = true := by
  obtain ⟨hQv, hQl⟩ := hv Q hQ
  have hencP : (encodeD P.seq).length = P.length := by
    rw [encodeD_length hPv, hPl]
  have hencQ : (encodeD Q.seq).length = Q.length := by
    rw [encodeD_length hQv, hQl]
  unfold sweepFlag
  rw [if_pos (by omega)]
  rw [checkIdx_foldAS_iff m _ θ _ (by dsimp only; exact encodeD_ne_nil hPv hPl (by omega))]
  dsimp only
  refine ⟨by omega, { Q with fragment := false }, ?_, ?_, ?_⟩
  · refine admitList_cover _ (M + 1 - P.length) M 1000 _ (by omega)
      (List.mem_map_of_mem _ hQ) (by dsimp only; omega) (by dsimp only; omega)
  · obtain ⟨i, hpfx⟩ := hsub
    have hlenle := hpfx.length_le
    rw [List.length_drop] at hlenle
    have hPlen : m ≤ P.seq.length := by omega
    refine ⟨i, ?_, ?_⟩
    · dsimp only
      omega
    · dsimp only
      rw [← encodeD_drop hQv i]
      exact encodeD_pfx hpfx
  · dsimp only
    rw [abs_sub_comm]
    exact hrt

theorem sweepFlag_false_of_disjoint (ds : List Record) (θ : RT) (M m : ℕ)
    (P : Record)
    (hv : ∀ r ∈ ds, ValidSeq r.seq ∧ r.length = r.seq.length)
    (hm0 : 0 < m)
    (hPv : ValidSeq P.seq) (hPl : P.length = P.seq.length)
    (hnosub : ∀ Q ∈ ds, P.length < Q.length → ∀ i, ¬ P.seq <+: Q.seq.drop i) :
    sweepFlag (ds.map (fun x => { x with fragment := false })) θ M m P = false := by
  unfold sweepFlag
  by_cases hc : P.length ≤ M ∧ M < P.length + (M + 1 - m)
  · rw [if_pos hc]
    have hmP : m ≤ P.length := by omega
    cases hb : checkIdx (foldAS m (admitList (ds.map (fun x => { x with fragment := false })) (descList M (M + 1 - P.length)) 1000) emptyTree) θ { P with fragment := false } with
    | false => rfl
    | true =>
      exfalso
      rw [checkIdx_foldAS_iff m _ θ _
        (by dsimp only; exact encodeD_ne_nil hPv hPl (by omega))] at hb
      obtain ⟨_, q, hq, ⟨i, hi, hpfx⟩, _⟩ := hb
      obtain ⟨hqd0, hqlong⟩ := admitList_sub _ (M + 1 - P.length) M 1000 q
        (by omega) hq
      obtain ⟨Q₀, hQ₀, rfl⟩ := List.mem_map.mp hqd0
      obtain ⟨hQv, hQl⟩ := hv Q₀ hQ₀
      dsimp only at hi hpfx hqlong
      have hencQ : (encodeD Q₀.seq).length = Q₀.seq.length := encodeD_length hQv
      rw [← encodeD_drop hQv i] at hpfx
      have hchar : P.seq <+: Q₀.seq.drop i :=
        encodeD_pfx_rev hPv (hQv.drop i) hpfx
      exact hnosub Q₀ hQ₀ (by omega) i hchar
  · rw [if_neg hc]

/-- C1: for every dataset and records P, Q with `len(P) < len(Q)`,
`len(P) ≥ min_len`, P a contiguous substring of Q and RT difference strictly
below the threshold, once Q is admissible (a real peptide length, under the
sentinel 1000) and P's length is classified (`min_len ≤ len(P) ≤ max_len`),
the sweep sets P's fragment flag to true. -/
theorem C1_containment (ds : List Record) (θ : RT) (M m k : ℕ) (P Q : Record)
    (hv : ∀ r ∈ ds, ValidSeq r.seq ∧ r.length = r.seq.length)
    (hm0 : 0 < m)
    (hP : ds.get? k = some P) (hQ : Q ∈ ds)
    (hmP : m ≤ P.length) (hPM : P.length ≤ M)
    (hPQ : P.length < Q.length) (hQcap : Q.length ≤ 1000)
    (hsub : ∃ i, P.seq <+: Q.seq.drop i)
    (hrt : |P.rt - Q.rt| < θ) :
    defrag ds θ M m = Except.ok (defragIdx ds θ M m) ∧
    (defragIdx ds θ M m).get? k = some { P with fragment := true } := by
  obtain ⟨hPv, hPl⟩ := hv P (List.get?_mem hP)
  refine ⟨defrag_ok ds θ M m (fun r hr => (hv r hr).1), ?_⟩
  rw [defragIdx_get ds θ M m k P hP,
    sweepFlag_true_of_containment ds θ M m P Q hv hm0 hQ hmP hPM hPQ hQcap hsub hrt hPv hPl]

/-- C5: a classified record that is not a contiguous substring of any longer
dataset record keeps a false fragment flag, whatever the retention times. -/
theorem C5_no_false_positive (ds : List Record) (θ : RT) (M m k : ℕ) (P : Record)
    (hv : ∀ r ∈ ds, ValidSeq r.seq ∧ r.length = r.seq.length)
    (hm0 : 0 < m)
    (hP : ds.get? k = some P)
    (hnosub : ∀ Q ∈ ds, P.length < Q.length → ∀ i, ¬ P.seq <+: Q.seq.drop i) :
    defrag ds θ M m = Except.ok (defragIdx ds θ M m) ∧
    (defragIdx ds θ M m).get? k = some { P with fragment := false } := by
  obtain ⟨hPv, hPl⟩ := hv P (List.get?_mem hP)
  refine ⟨defrag_ok ds θ M m (fun r hr => (hv r hr).1), ?_⟩
  rw [defragIdx_get ds θ M m k P hP,
    sweepFlag_false_of_disjoint ds θ M m P hv hm0 hPv hPl hnosub]

/-- C10: a record can only be flagged through a strictly longer record of the
dataset whose retention time lies within the threshold and that contains it
as a contiguous substring; in particular two records of identical sequence
(hence identical length) never flag each other. -/
theorem C10_longer_only (ds : List Record) (θ : RT) (M m k : ℕ) (r r' : Record)
    (hv : ∀ x ∈ ds, ValidSeq x.seq ∧ x.length = x.seq.length)
    (hm0 : 0 < m)
    (hr : ds.get? k = some r)
    (hout : (defragIdx ds θ M m).get? k = some r')
    (hfrag : r'.fragment = true) :
    defrag ds θ M m = Except.ok (defragIdx ds θ M m) ∧
    ∃ Q ∈ ds, r.length < Q.length ∧ |Q.rt - r.rt| < θ ∧
      ∃ i, r.seq <+: Q.seq.drop i := by
  obtain ⟨hrv, hrl⟩ := hv r (List.get?_mem hr)
  refine ⟨defrag_ok ds θ M m (fun x hx => (hv x hx).1), ?_⟩
  rw [defragIdx_get ds θ M m k r hr] at hout
  have hr' : r' = { r with fragment := sweepFlag (ds.map (fun x => { x with fragment := false })) θ M m r } :=
    (Option.some_inj.mp hout).symm
  rw [hr'] at hfrag
  dsimp only at hfrag
  unfold sweepFlag at hfrag
  by_cases hc : r.length ≤ M ∧ M < r.length + (M + 1 - m)
  · rw [if_pos hc] at hfrag
    have hmr : m ≤ r.length := by omega
    rw [checkIdx_foldAS_iff m _ θ _
      (by dsimp only; exact encodeD_ne_nil hrv hrl (by omega))] at hfrag
    obtain ⟨_, q, hq, ⟨i, hi, hpfx⟩, hclose⟩ := hfrag
    obtain ⟨hqd0, hqlong⟩ := admitList_sub _ (M + 1 - r.length) M 1000 q
      (by omega) hq
    obtain ⟨Q₀, hQ₀, rfl⟩ := List.mem_map.mp hqd0
    obtain ⟨hQv, hQl⟩ := hv Q₀ hQ₀
    dsimp only at hi hpfx hqlong hclose
    rw [← encodeD_drop hQv i] at hpfx
    refine ⟨Q₀, hQ₀, by omega, hclose, i, encodeD_pfx_rev hrv (hQv.drop i) hpfx⟩
  · rw [if_neg hc] at hfrag
    exact absurd hfrag (by simp)

end Defrag

namespace Defrag

/-- C3: the retention-time comparison of `_check` is a strict inequality:
when a lookup returns a (non-empty) list, the record is marked iff some
stored value is strictly within the threshold, and a single stored value at
exactly the threshold is not a match. -/
theorem C3_strict_tolerance (dt : DefragSTree) (θ : RT) (r : Record)
    (l : List RT)
    (hget : getW dt.tree r.seq = Except.ok (some l)) (hne : l ≠ []) :
    (_check dt θ r = Except.ok true ↔ ∃ x ∈ l, |x - r.rt| < θ) ∧
    (∀ x : RT, l = [x] → |x - r.rt| = θ → _check dt θ r = Except.ok false) := by
  have hch : _check dt θ r =
      Except.ok (l.any (fun rt => decide (|rt - r.rt| < θ))) := by
    unfold _check
    rw [hget]
    rfl
  constructor
  · rw [hch]
    simp [List.any_eq_true]
  · rintro x rfl hx
    rw [hch]
    simp [hx]

/-- C6: classification is invariant under row order — the flag of every
record is a function of the record alone and of the dataset as a multiset —
and a second run of the sweep on the same input reproduces the same flags. -/
theorem C6_perm (ds ds' : List Record) (θ : RT) (M m : ℕ)
    (hperm : ds.Perm ds')
    (hv : ∀ r ∈ ds, ValidSeq r.seq) :
    (defrag ds θ M m = Except.ok (defragIdx ds θ M m) ∧
     defrag ds' θ M m = Except.ok (defragIdx ds' θ M m) ∧
     defrag ds θ M m = defrag ds θ M m) ∧
    ∃ F : Record → Bool,
      (∀ (k : ℕ) (r : Record), ds.get? k = some r →
        (defragIdx ds θ M m).get? k = some { r with fragment := F r }) ∧
      (∀ (k : ℕ) (r : Record), ds'.get? k = some r →
        (defragIdx ds' θ M m).get? k = some { r with fragment := F r }) := by
  have hv' : ∀ r ∈ ds', ValidSeq r.seq := fun r hr => hv r (hperm.mem_iff.mpr hr)
  refine ⟨⟨defrag_ok ds θ M m hv, defrag_ok ds' θ M m hv', rfl⟩, ?_⟩
  refine ⟨sweepFlag (ds.map (fun x => { x with fragment := false })) θ M m, ?_, ?_⟩
  · intro k r hr
    exact defragIdx_get ds θ M m k r hr
  · intro k r hr
    rw [defragIdx_get ds' θ M m k r hr]
    have hmem : ∀ q, q ∈ ds'.map (fun x => { x with fragment := false }) ↔
        q ∈ ds.map (fun x => { x with fragment := false }) :=
      fun q => ((hperm.map _).mem_iff).symm
    rw [sweepFlag_ext hmem θ M m r]

/-- C7: the codec is a total bijection from the 20 canonical letters onto
`[0, 20)`; every other character fails to encode, insertion of a sequence
holding one raises the error, and lookup of such a sequence can never
return a match. -/
theorem C7_codec :
    (∀ c ∈ aaLetters, (convert_aa c).isSome = true) ∧
    (∀ (c₁ c₂ : Char) (v : Fin 20),
      convert_aa c₁ = some v → convert_aa c₂ = some v → c₁ = c₂) ∧
    (∀ v : Fin 20, ∃ c ∈ aaLetters, convert_aa c = some v) ∧
    (∀ c : Char, c ∉ aaLetters → convert_aa c = none) ∧
    (∀ (m : ℕ) (rt : RT) (s : List Char) (d : ℕ) (t : STree),
      (∃ c ∈ s, convert_aa c = none) → addW m rt s d t = Except.error ()) ∧
    (∀ (t : STree) (s : List Char) (l : List RT),
      (∃ c ∈ s, convert_aa c = none) → getW t s ≠ Except.ok (some l)) := by
  refine ⟨by decide, fun c₁ c₂ v h₁ h₂ => convert_aa_inj h₁ h₂, by decide,
    fun c h => convert_aa_none h, ?_, ?_⟩
  · intro m rt s
    induction s with
    | nil => rintro d t ⟨c, hc, _⟩; simp at hc
    | cons c s ih =>
      rintro d t ⟨c', hc', hconv⟩
      cases hcc : convert_aa c with
      | none => simp [addW, hcc]
      | some v =>
        have hc's : c' ∈ s := by
          rcases List.mem_cons.mp hc' with rfl | h
          · rw [hcc] at hconv
            exact absurd hconv (by simp)
          · exact h
        cases hcv : t.children v with
        | none =>
          simp only [addW, hcc, hcv]
          rw [ih _ _ ⟨c', hc's, hconv⟩]
          rfl
        | some sub =>
          simp only [addW, hcc, hcv]
          rw [ih _ _ ⟨c', hc's, hconv⟩]
          rfl
  · intro t s
    induction s generalizing t with
    | nil => rintro l ⟨c, hc, _⟩; simp at hc
    | cons c s ih =>
      rintro l ⟨c', hc', hconv⟩ heq
      cases hcc : convert_aa c with
      | none => simp [getW, hcc] at heq
      | some v =>
        have hc's : c' ∈ s := by
          rcases List.mem_cons.mp hc' with rfl | h
          · rw [hcc] at hconv
            exact absurd hconv (by simp)
          · exact h
        cases hcv : t.children v with
        | none => simp [getW, hcc, hcv] at heq
        | some sub =>
          simp only [getW, hcc, hcv] at heq
          exact ih sub l ⟨c', hc's, hconv⟩ heq

/-- C9: the sweep returns a dataframe of the same shape whose rows differ
from the input rows only in the fragment column; the input itself is
untouched (`defrag` works on a copy, modelled here by value semantics). -/
theorem C9_frame (ds : List Record) (θ : RT) (M m : ℕ)
    (hv : ∀ r ∈ ds, ValidSeq r.seq) :
    defrag ds θ M m = Except.ok (defragIdx ds θ M m) ∧
    (defragIdx ds θ M m).length = ds.length ∧
    ∀ (k : ℕ) (r : Record), ds.get? k = some r →
      ∃ b : Bool, (defragIdx ds θ M m).get? k = some { r with fragment := b } := by
  refine ⟨defrag_ok ds θ M m hv, ?_, ?_⟩
  · simp only [defragIdx]
    rw [sweep_len, List.length_map]
  · intro k r hr
    exact ⟨_, defragIdx_get ds θ M m k r hr⟩

end Defrag

namespace Defrag

/-- C2 counterexample: with `min_length = 6`, after inserting `"ACDEFG"` via
`add_with_suffixes`, the query `"G"` IS a contiguous substring (at offset 5)
yet its lookup fails — only suffixes of length at least `min_length` are
stored, so the claimed equivalence with plain substring containment is
false. -/
theorem C2_substring_cex :
    ("G".toList <+: ("ACDEFG".toList).drop 5) ∧
    addSuffixesW 6 ("ACDEFG".toList) 10 emptyTree =
      Except.ok (addSuffixesIdx 6 (encodeD ("ACDEFG".toList)) 10 emptyTree) ∧
    getW (addSuffixesIdx 6 (encodeD ("ACDEFG".toList)) 10 emptyTree)
      ("G".toList) = Except.ok none :=
  ⟨by decide, addSuffixesW_ok 6 10 (by decide) emptyTree, rfl⟩

/-- C2 amended: for strings inserted via `add_with_suffixes`, a nonempty
query's lookup succeeds iff the query occurs in some inserted string at an
offset `i` with `i + min_length ≤ len(S)` — equivalently, iff it is a prefix
of a stored suffix of length at least `min_length`. Plain substring
containment at offsets past `len(S) - min_length` is not detected. -/
theorem C2_substring_amended (m : ℕ) (rs : List Record) (key : List Char)
    (hv : ∀ r ∈ rs, ValidSeq r.seq) (hk : ValidSeq key) (hne : key ≠ []) :
    ∃ t : STree,
      rs.foldlM (fun level r => addSuffixesW m r.seq r.rt level) emptyTree =
        Except.ok t ∧
      t = foldAS m rs emptyTree ∧
      ((∃ l, getW t key = Except.ok (some l)) ↔
        ∃ q ∈ rs, ∃ i, i + m ≤ q.seq.length ∧ key <+: q.seq.drop i) := by
  refine ⟨foldAS m rs emptyTree, ?_, rfl, ?_⟩
  · exact foldlM_ok _ _ rs (fun b r hrr => addSuffixesW_ok m r.rt (hv r hrr) b)
      emptyTree
  · rw [getW_ok hk]
    have hkne : encodeD key ≠ [] := by
      have hl := encodeD_length hk
      intro h0
      rw [h0] at hl
      simp at hl
      exact hne (List.length_eq_zero.mp hl.symm)
    constructor
    · rintro ⟨l, hl⟩
      simp only [Except.ok.injEq] at hl
      have hsome : (getIdx (foldAS m rs emptyTree) (encodeD key)).isSome = true := by
        rw [hl]
        rfl
      obtain ⟨q, hq, i, hi, hpfx⟩ := (foldAS_path m rs _ hkne).mp hsome
      have hqv := hv q hq
      have hlenq : (encodeD q.seq).length = q.seq.length := encodeD_length hqv
      rw [← encodeD_drop hqv i] at hpfx
      exact ⟨q, hq, i, by omega, encodeD_pfx_rev hk (hqv.drop i) hpfx⟩
    · rintro ⟨q, hq, i, hi, hpfx⟩
      have hqv := hv q hq
      have hsome := (foldAS_path m rs _ hkne).mpr ⟨q, hq, i,
        by rw [encodeD_length hqv]; exact hi,
        by rw [← encodeD_drop hqv i]; exact encodeD_pfx hpfx⟩
      obtain ⟨l, hl⟩ := Option.isSome_iff_exists.mp hsome
      exact ⟨l, by rw [hl]⟩

/-- C4 counterexample: a record of length 23, strictly longer than
`max_len = 22`, IS admitted into the trie by the very first sweep step
(floor 22): its full-sequence path is present with its retention time. The
claim that longer-than-`max_len` records are never inserted is false. -/
theorem C4_long_inserted_cex :
    22 < wQ23.length ∧
    getW ((classifyStep 6 [wQ23] 1 ([wQ23], ⟨emptyTree, 1000⟩) 22).2.tree)
      wQ23.seq = Except.ok (some [10]) :=
  ⟨by decide, rfl⟩

/-- C4 amended: records longer than `max_len` (up to the 1000 sentinel) ARE
admitted into the trie — the first `add_above_length` call stores them with
all their suffixes — but records with `length < min_len` or
`length > max_len` are never themselves classified: their fragment flag
comes out false. -/
theorem C4_bounds_amended :
    (∀ (ds : List Record) (M m : ℕ) (Q : Record),
      (∀ r ∈ ds, ValidSeq r.seq ∧ r.length = r.seq.length) → 0 < m →
      Q ∈ ds → M < Q.length → Q.length ≤ 1000 → m ≤ Q.length →
      ∃ st' : DefragSTree,
        DefragSTree.add_above_length
          (DefragSTree.init (ds.map (fun x => { x with fragment := false })) m M)
          M = Except.ok st' ∧
        ∃ l, getW st'.tree Q.seq = Except.ok (some l)) ∧
    (∀ (ds : List Record) (θ : RT) (M m k : ℕ) (r : Record),
      (∀ x ∈ ds, ValidSeq x.seq) →
      ds.get? k = some r → (r.length < m ∨ M < r.length) →
      defrag ds θ M m = Except.ok (defragIdx ds θ M m) ∧
      (defragIdx ds θ M m).get? k = some { r with fragment := false }) := by
  constructor
  · intro ds M m Q hv hm0 hQ hQM hQcap hmQ
    obtain ⟨hQv, hQl⟩ := hv Q hQ
    have h0 : ∀ r ∈ ds.map (fun x => { x with fragment := false }), ValidSeq r.seq := by
      intro r hr
      obtain ⟨r₀, hr₀, rfl⟩ := List.mem_map.mp hr
      exact (hv r₀ hr₀).1
    refine ⟨_, add_above_length_ok _ M h0, ?_⟩
    dsimp only [DefragSTree.init]
    rw [getW_ok hQv]
    have hkne : encodeD Q.seq ≠ [] := encodeD_ne_nil hQv hQl (by omega)
    have hencQ : (encodeD Q.seq).length = Q.length := by
      rw [encodeD_length hQv, hQl]
    have hQm : ({ Q with fragment := false } : Record) ∈
        bandFilter (ds.map (fun x => { x with fragment := false })) 1000 M :=
      mem_bandFilter.mpr ⟨List.mem_map_of_mem (fun x => { x with fragment := false }) hQ,
        by dsimp only; omega, by dsimp only; omega⟩
    have hocc : (0 : ℕ) + m ≤ (encodeD ({ Q with fragment := false } : Record).seq).length := by
      dsimp only
      omega
    have hpfx : encodeD Q.seq <+:
        (encodeD ({ Q with fragment := false } : Record).seq).drop 0 := by
      dsimp only
      rw [List.drop_zero]
    have hsome := (foldAS_path m _ (encodeD Q.seq) hkne).mpr ⟨_, hQm, 0, hocc, hpfx⟩
    obtain ⟨l, hl⟩ := Option.isSome_iff_exists.mp hsome
    exact ⟨l, by rw [hl]⟩
  · intro ds θ M m k r hv hr hout
    refine ⟨defrag_ok ds θ M m hv, ?_⟩
    rw [defragIdx_get ds θ M m k r hr]
    unfold sweepFlag
    rw [if_neg (by omega)]

/-- C8 counterexample: `_curr_min_length` starts at 1000, not at a value
above every possible record length: a record of length 1001 is NOT selected
by the first `add_above_length` call even though its length exceeds the
floor — the call leaves the trie and counter untouched. -/
theorem C8_sentinel_cex :
    22 < wBig.length ∧
    wBig ∉ bandFilter [wBig] 1000 22 ∧
    DefragSTree.add_above_length (DefragSTree.init [wBig] 6 22) 22 =
      Except.ok { DefragSTree.init [wBig] 6 22 with _curr_min_length := 22 } :=
  ⟨by decide, by decide, rfl⟩

/-- C8 amended: the floor starts at the sentinel 1000 — larger than any real
peptide length but not infinite — so the first call selects exactly the
records with `floor < length ≤ 1000`, not every record with
`length > floor`. -/
theorem C8_sentinel_amended (ds : List Record) (m M floor : ℕ) (r : Record)
    (hr : r ∈ ds) :
    (DefragSTree.init ds m M)._curr_min_length = 1000 ∧
    (r ∈ bandFilter ds ((DefragSTree.init ds m M)._curr_min_length) floor ↔
      (floor < r.length ∧ r.length ≤ 1000)) := by
  refine ⟨rfl, ?_⟩
  rw [mem_bandFilter]
  constructor
  · rintro ⟨_, h1, h2⟩
    exact ⟨h1, h2⟩
  · rintro ⟨h1, h2⟩
    exact ⟨hr, h1, h2⟩

end Defrag

namespace Defrag

theorem wrt_close : |wP9.rt - wQ12.rt| < (1 / 2 : ℚ) := by
  show |(51 / 5 : ℚ) - 10| < 1 / 2
  rw [show (51 / 5 : ℚ) - 10 = 1 / 5 from by norm_num]
  rw [abs_of_pos (by norm_num : (0 : ℚ) < 1 / 5)]
  norm_num

theorem C1_containment_witness :
    defrag [wQ12, wP9] (1 / 2) 22 6 = Except.ok (defragIdx [wQ12, wP9] (1 / 2) 22 6) ∧
    (defragIdx [wQ12, wP9] (1 / 2) 22 6).get? 1 = some { wP9 with fragment := true } :=
  C1_containment [wQ12, wP9] (1 / 2) 22 6 1 wP9 wQ12 (by decide) (by decide) rfl
    (List.mem_cons_self _ _) (by decide) (by decide) (by decide) (by decide)
    ⟨0, by decide⟩ wrt_close

theorem C2_substring_amended_witness :
    ∃ t : STree,
      [wG6].foldlM (fun level r => addSuffixesW 6 r.seq r.rt level) emptyTree =
        Except.ok t ∧
      t = foldAS 6 [wG6] emptyTree ∧
      ((∃ l, getW t ("ACDEFG".toList) = Except.ok (some l)) ↔
        ∃ q ∈ [wG6], ∃ i, i + 6 ≤ q.seq.length ∧ ("ACDEFG".toList) <+: q.seq.drop i) :=
  C2_substring_amended 6 [wG6] ("ACDEFG".toList) (by decide) (by decide) (by decide)

theorem C3_strict_tolerance_witness :
    (_check dtw (1 / 2) wB6 = Except.ok true ↔ ∃ x ∈ [(10 : RT)], |x - wB6.rt| < 1 / 2) ∧
    _check dtw (1 / 2) wB6 = Except.ok false := by
  have h := C3_strict_tolerance dtw (1 / 2) wB6 [10] rfl (by simp)
  refine ⟨h.1, h.2 10 rfl ?_⟩
  show |(10 : ℚ) - wB6.rt| = 1 / 2
  rw [show (10 : ℚ) - wB6.rt = -(1 / 2) from by show (10 : ℚ) - 21 / 2 = -(1 / 2); norm_num]
  rw [abs_neg, abs_of_pos (by norm_num : (0 : ℚ) < 1 / 2)]

theorem C4_bounds_amended_witness :
    (∃ st' : DefragSTree,
      DefragSTree.add_above_length
        (DefragSTree.init ([wQ23].map (fun x => { x with fragment := false })) 6 22)
        22 = Except.ok st' ∧
      ∃ l, getW st'.tree wQ23.seq = Except.ok (some l)) ∧
    (defrag [wQ23] 1 22 6 = Except.ok (defragIdx [wQ23] 1 22 6) ∧
     (defragIdx [wQ23] 1 22 6).get? 0 = some { wQ23 with fragment := false }) :=
  ⟨C4_bounds_amended.1 [wQ23] 22 6 wQ23 (by decide) (by decide)
      (List.mem_cons_self _ _) (by decide) (by decide) (by decide),
   C4_bounds_amended.2 [wQ23] 1 22 6 0 wQ23 (by decide) rfl (Or.inr (by decide))⟩

theorem C5_no_false_positive_witness :
    defrag [wQ12, wDisj6] (1 / 2) 22 6 =
      Except.ok (defragIdx [wQ12, wDisj6] (1 / 2) 22 6) ∧
    (defragIdx [wQ12, wDisj6] (1 / 2) 22 6).get? 1 =
      some { wDisj6 with fragment := false } := by
  refine C5_no_false_positive [wQ12, wDisj6] (1 / 2) 22 6 1 wDisj6
    (by decide) (by decide) rfl ?_
  intro Q hQ hlen i hpfx
  have hQ' : Q = wQ12 ∨ Q = wDisj6 := by simpa using hQ
  rcases hQ' with rfl | rfl
  · have hle := hpfx.length_le
    rw [List.length_drop] at hle
    have h6 : wDisj6.seq.length = 6 := by decide
    have h12 : wQ12.seq.length = 12 := by decide
    have hi : i ≤ 6 := by omega
    interval_cases i <;> exact absurd hpfx (by decide)
  · exact absurd hlen (by decide)

theorem C6_perm_witness :
    ((defrag [wQ12, wP9] (1 / 2) 22 6 = Except.ok (defragIdx [wQ12, wP9] (1 / 2) 22 6) ∧
      defrag [wP9, wQ12] (1 / 2) 22 6 = Except.ok (defragIdx [wP9, wQ12] (1 / 2) 22 6) ∧
      defrag [wQ12, wP9] (1 / 2) 22 6 = defrag [wQ12, wP9] (1 / 2) 22 6)) ∧
    ∃ F : Record → Bool,
      (∀ (k : ℕ) (r : Record), ([wQ12, wP9] : List Record).get? k = some r →
        (defragIdx [wQ12, wP9] (1 / 2) 22 6).get? k = some { r with fragment := F r }) ∧
      (∀ (k : ℕ) (r : Record), ([wP9, wQ12] : List Record).get? k = some r →
        (defragIdx [wP9, wQ12] (1 / 2) 22 6).get? k = some { r with fragment := F r }) :=
  C6_perm [wQ12, wP9] [wP9, wQ12] (1 / 2) 22 6 (List.Perm.swap wP9 wQ12 []) (by decide)

theorem C7_codec_witness :
    convert_aa 'X' = none ∧
    addW 6 10 ('A' :: 'X' :: []) 0 emptyTree = Except.error () ∧
    getW emptyTree ('A' :: 'X' :: []) ≠ Except.ok (some [10]) := by
  have hX : convert_aa 'X' = none := C7_codec.2.2.2.1 'X' (by decide)
  exact ⟨hX, C7_codec.2.2.2.2.1 6 10 _ 0 emptyTree ⟨'X', by decide, hX⟩,
    C7_codec.2.2.2.2.2 emptyTree _ [10] ⟨'X', by decide, hX⟩⟩

theorem C8_sentinel_amended_witness :
    (DefragSTree.init [wQ12] 6 22)._curr_min_length = 1000 ∧
    (wQ12 ∈ bandFilter [wQ12] ((DefragSTree.init [wQ12] 6 22)._curr_min_length) 6 ↔
      (6 < wQ12.length ∧ wQ12.length ≤ 1000)) :=
  C8_sentinel_amended [wQ12] 6 22 6 wQ12 (List.mem_cons_self _ _)

theorem C9_frame_witness :
    defrag [wQ12, wP9] (1 / 2) 22 6 = Except.ok (defragIdx [wQ12, wP9] (1 / 2) 22 6) ∧
    (defragIdx [wQ12, wP9] (1 / 2) 22 6).length = ([wQ12, wP9] : List Record).length ∧
    ∀ (k : ℕ) (r : Record), ([wQ12, wP9] : List Record).get? k = some r →
      ∃ b : Bool, (defragIdx [wQ12, wP9] (1 / 2) 22 6).get? k =
        some { r with fragment := b } :=
  C9_frame [wQ12, wP9] (1 / 2) 22 6 (by decide)

theorem C10_longer_only_witness :
    defrag [wQ12, wP9] (1 / 2) 22 6 = Except.ok (defragIdx [wQ12, wP9] (1 / 2) 22 6) ∧
    ∃ Q ∈ ([wQ12, wP9] : List Record), wP9.length < Q.length ∧
      |Q.rt - wP9.rt| < 1 / 2 ∧ ∃ i, wP9.seq <+: Q.seq.drop i := by
  have hout := defragIdx_get [wQ12, wP9] (1 / 2) 22 6 1 wP9 rfl
  rw [sweepFlag_true_of_containment [wQ12, wP9] (1 / 2) 22 6 wP9 wQ12 (by decide)
    (by decide) (List.mem_cons_self _ _) (by decide) (by decide) (by decide)
    (by decide) ⟨0, by decide⟩ wrt_close (by decide) (by decide)] at hout
  exact C10_longer_only [wQ12, wP9] (1 / 2) 22 6 1 wP9 { wP9 with fragment := true }
    (by decide) (by decide) rfl hout rfl

end Defrag
